import Mathlib

/-!
Verification of the bezier-editor timeline core (`src/create-timeline.tsx` and
its two sibling variants). Coordinates are modelled as exact rationals; the
JavaScript array accesses that can yield `undefined` are modelled with
`Option`, and the code paths that `throw` are modelled with `Except`.
-/

namespace BezierEditor

/-- Vector type from `types` / spec section 3: a 2D point `{x, y}` with
rational (exact) coordinates. -/
structure Vec where
  x : ℚ
  y : ℚ
deriving DecidableEq

/-- Modelled from the spec: component-wise vector addition (`vector.add` /
`addVector` from the missing `lib/vector` module, spec section 4.1). -/
def Vec.add (a b : Vec) : Vec := ⟨a.x + b.x, a.y + b.y⟩

/-- Modelled from the spec: component-wise vector subtraction
(`vector.subtract` / `subtractVector`, spec section 4.1). -/
def Vec.sub (a b : Vec) : Vec := ⟨a.x - b.x, a.y - b.y⟩

/-- Modelled from the spec: scalar multiplication (`vector.multiply(a,k)`,
spec section 4.1). -/
def Vec.scale (a : Vec) (k : ℚ) : Vec := ⟨a.x * k, a.y * k⟩

/-- The `{pre?: Vector, post?: Vector}` control record attached to an anchor
(`types`, spec section 3). For stored anchors the vectors are relative
descriptors; for derived anchors they are absolute curve-space points. -/
structure Controls where
  pre : Option Vec
  post : Option Vec
deriving DecidableEq

/-- Stored anchor `[position, controls]` (spec section 3). -/
abbrev Anchor := Vec × Controls

/-- Derived absolute anchor; structurally identical to `Anchor`, but the
control vectors are absolute curve-space points (spec section 3). -/
abbrev AbsAnchor := Anchor

/-- JavaScript array indexing `a[i]`: `undefined` (here `none`) outside
`[0, length)`, including for negative indices. -/
def jsGet (l : List α) (i : ℤ) : Option α :=
  if h : 0 ≤ i ∧ i.toNat < l.length then some (l.get ⟨i.toNat, h.2⟩) else none

/-- The `'pre' | 'post'` discriminator used throughout the drag logic. -/
inductive CtrlType where
  | pre : CtrlType
  | post : CtrlType
deriving DecidableEq

/-- Resolution of a relative `pre` descriptor against the previous anchor's
position, from `absoluteAnchors` in `create-timeline.tsx` (lines 472-480):
`point + ⟨(point.x - prev.x) * pre.x * -1, pre.y⟩`. -/
def preToAbsolute (point prev p : Vec) : Vec :=
  Vec.add point ⟨(point.x - prev.x) * p.x * (-1), p.y⟩

/-- Resolution of a relative `post` descriptor against the next anchor's
position, from `absoluteAnchors` in `create-timeline.tsx` (lines 482-490):
`point + ⟨(next.x - point.x) * post.x, post.y⟩`. -/
def postToAbsolute (point next q : Vec) : Vec :=
  Vec.add point ⟨(next.x - point.x) * q.x, q.y⟩

/-- One step of the absolute-anchor deriver (`absoluteAnchors` in
`create-timeline.tsx`, lines 464-494): resolves the anchor at index `i`.
`none` models the JavaScript `TypeError` thrown when `anchors[i-1]` or
`anchors[i+1]` is `undefined` while the corresponding descriptor exists. -/
def deriveAnchor (anchors : List Anchor) (i : ℕ) : Option AbsAnchor :=
  (jsGet anchors (i : ℤ)).bind fun a =>
    (match a.2.pre with
      | none => some none
      | some p => (jsGet anchors ((i : ℤ) - 1)).map fun prevA : Anchor =>
          some (preToAbsolute a.1 prevA.1 p)).bind fun preAbs =>
    (match a.2.post with
      | none => some none
      | some q => (jsGet anchors ((i : ℤ) + 1)).map fun nextA : Anchor =>
          some (postToAbsolute a.1 nextA.1 q)).map fun postAbs =>
    (a.1, ⟨preAbs, postAbs⟩)

/-- Derives the anchors at all the given indices, failing if any single
derivation fails (helper for `absoluteAnchors`). -/
def deriveAll (anchors : List Anchor) : List ℕ → Option (List AbsAnchor)
  | [] => some []
  | i :: rest =>
    match deriveAnchor anchors i, deriveAll anchors rest with
    | some a, some l => some (a :: l)
    | _, _ => none

/-- The full derived absolute-anchor sequence (`absoluteAnchors` memo in
`create-timeline.tsx`, lines 464-494; `createIndexMemo` is modelled from the
spec as pure recomputation, i.e. a map with index). -/
def absoluteAnchors (anchors : List Anchor) : Option (List AbsAnchor) :=
  deriveAll anchors (List.range anchors.length)

/-- Boolean check that consecutive anchors are strictly increasing in
`position.x`. -/
def sortedXb : List Anchor → Bool
  | [] => true
  | [_] => true
  | a :: b :: rest => decide (a.1.x < b.1.x) && sortedXb (b :: rest)

/-- Strict time-sortedness of an anchor sequence (spec section 3 invariant:
anchors strictly increasing in `position.x`). -/
def SortedX (l : List Anchor) : Prop :=
  sortedXb l = true

instance : DecidablePred SortedX := fun l =>
  inferInstanceAs (Decidable (sortedXb l = true))

theorem sortedX_iff_chain' (l : List Anchor) :
    SortedX l ↔ List.Chain' (fun a b : Anchor => a.1.x < b.1.x) l := by
  induction l with
  | nil => simp [SortedX, sortedXb]
  | cons a l ih =>
    cases l with
    | nil => simp [SortedX, sortedXb]
    | cons b rest =>
      rw [List.chain'_cons, ← ih]
      simp [SortedX, sortedXb]

/-- Modelled from the spec: the cubic Bezier polynomial used by the missing
`lib/create-cubic-lookup-map` module (spec section 4.4), one coordinate. -/
def bez1 (p0 p1 p2 p3 t : ℚ) : ℚ :=
  (1 - t) ^ 3 * p0 + 3 * (1 - t) ^ 2 * t * p1 + 3 * (1 - t) * t ^ 2 * p2 + t ^ 3 * p3

/-- Modelled from the spec: a point of the cubic Bezier segment between two
consecutive absolute anchors, with control points
`A.position, A.post, B.pre, B.position` (spec section 4.4). An absent handle
degrades to the owning endpoint itself, which keeps the segment's endpoints
exact (the spec leaves the absent-handle case open, section 8). -/
def bezPoint (a b : AbsAnchor) (t : ℚ) : Vec :=
  let p0 := a.1
  let p1 := a.2.post.getD a.1
  let p2 := b.2.pre.getD b.1
  let p3 := b.1
  ⟨bez1 p0.x p1.x p2.x p3.x t, bez1 p0.y p1.y p2.y p3.y t⟩

/-- Modelled from the spec: `createLookupMap` from the missing
`lib/create-cubic-lookup-map` module (spec section 4.4) — sample
`(x(t), y(t))` at `n + 1` evenly spaced parameters `t = k / n`. The fixed
sample count is left as the parameter `n`. -/
def createLookupMap (a b : AbsAnchor) (n : ℕ) : List Vec :=
  (List.range (n + 1)).map fun k : ℕ => bezPoint a b ((k : ℚ) / (n : ℚ))

/-- A derived segment: its `x` range and its sampled lookup map
(`lookupMapSegments` in `create-timeline.tsx`, lines 496-504). -/
structure Segment where
  lo : ℚ
  hi : ℚ
  map : List Vec
deriving DecidableEq

/-- The segment list derived from the absolute anchors — one segment per
consecutive pair (`lookupMapSegments` plus the `slice(0, -1)` in `getValue`,
`create-timeline.tsx` lines 496-513). -/
def segmentsOf (absList : List AbsAnchor) (n : ℕ) : List Segment :=
  (absList.zip absList.tail).map fun ab =>
    ⟨ab.1.1.x, ab.2.1.x, createLookupMap ab.1 ab.2 n⟩

/-- Modelled from the spec: resolving a query `x` against a lookup map by
locating the bracketing samples and linearly interpolating between them
(spec section 4.4). `none` models a query that no sample pair brackets. -/
def lookupInterp (samples : List Vec) (time : ℚ) : Option ℚ :=
  match samples with
  | p :: q :: rest =>
    if p.x ≤ time ∧ time ≤ q.x then
      some (p.y + (time - p.x) * (q.y - p.y) / (q.x - p.x))
    else
      lookupInterp (q :: rest) time
  | _ => none

/-- Modelled from the spec: `getValueFromSegments` from the missing
`lib/get-value-from-segments` module (spec section 4.5) — locates the first
segment whose `x` range contains `time` and returns that segment's lookup
result. -/
def getValueFromSegments (segments : List Segment) (time : ℚ) : Option ℚ :=
  match segments with
  | [] => none
  | s :: rest =>
    if s.lo ≤ time ∧ time ≤ s.hi then lookupInterp s.map time
    else getValueFromSegments rest time

/-- `getValue` from `create-timeline.tsx` (lines 510-513): sample the curve at
`time` through the derived segments. `none` models the failure cases the
source leaves undefined (derivation crash or out-of-range query). -/
def getValue (anchors : List Anchor) (n : ℕ) (time : ℚ) : Option ℚ :=
  (absoluteAnchors anchors).bind fun absList =>
    getValueFromSegments (segmentsOf absList n) time

/-- `addAnchor` from `create-timeline.tsx` (lines 515-528): the omitted value
defaults to `getValue(time)` on the pre-insertion curve (`getD 0` stands for
the `undefined` the source would propagate, unreachable for in-range times);
the new anchor is spliced before the first anchor with `position.x > time`,
with `pre` and `post` descriptors both `{x: 0.5, y: 0}`; if no such anchor
exists (`findIndex` returns `-1`) nothing happens. -/
def addAnchor (anchors : List Anchor) (n : ℕ) (time : ℚ) (value : Option ℚ) :
    List Anchor :=
  let v : ℚ :=
    match value with
    | some v0 => v0
    | none => (getValue anchors n time).getD 0
  match anchors.findIdx? (fun a => time < a.1.x) with
  | none => anchors
  | some i => anchors.insertIdx i (⟨time, v⟩, ⟨some ⟨1/2, 0⟩, some ⟨1/2, 0⟩⟩)

/-- The start offset JavaScript `splice` computes from a possibly negative or
out-of-range index: a negative index counts from the end (clamped at 0), a
nonnegative one is clamped at the length. -/
def spliceStart (len : ℕ) (index : ℤ) : ℕ :=
  if index < 0 then ((len : ℤ) + index).toNat else min index.toNat len

/-- `deleteAnchor` from `create-timeline.tsx` (lines 530-532):
`anchors.splice(index, 1)` — remove (at most) one element at the resolved
splice offset. -/
def deleteAnchor (anchors : List Anchor) (index : ℤ) : List Anchor :=
  anchors.take (spliceStart anchors.length index) ++
    anchors.drop (spliceStart anchors.length index + 1)

/-- The clamp applied to a candidate anchor position during a position drag
(`onPositionChange` in `create-timeline.tsx`, lines 321-335 /
`onPositionDragStart` in the part_001 variant, lines 359-392): first clamp
against the previous anchor, then against the next. -/
def clampPosition (prev next : Option Vec) (pos : Vec) : Vec :=
  let x1 : ℚ :=
    match prev with
    | some p => if pos.x - 1 < p.x then p.x + 1 else pos.x
    | none => pos.x
  let x2 : ℚ :=
    match next with
    | some nx => if x1 + 1 > nx.x then nx.x - 1 else x1
    | none => x1
  ⟨x2, pos.y⟩

/-- One incremental update of an anchor-position drag: clamp the candidate
against the neighbors' positions and write it back
(`setAnchors(index, 0, position)`), keeping the anchor's stored controls.
Since the deriver passes positions through unchanged, the neighbor positions
are read from the store. -/
def positionDragStep (anchors : List Anchor) (index : ℕ) (candidate : Vec) :
    List Anchor :=
  match jsGet anchors (index : ℤ) with
  | none => anchors
  | some a =>
    let prev := (jsGet anchors ((index : ℤ) - 1)).map (·.1)
    let next := (jsGet anchors ((index : ℤ) + 1)).map (·.1)
    anchors.set index (clampPosition prev next candidate, a.2)

/-- A whole position-drag gesture: the initial position is captured at drag
start, and each pointer delta yields the candidate `initial - delta`
(`onPositionDragStart` in the part_001 variant, lines 359-397). Running it on
any prefix of the delta list gives the corresponding intermediate state. -/
def positionDrag (anchors : List Anchor) (index : ℕ) (deltas : List Vec) :
    List Anchor :=
  let p0 : Vec := ((jsGet anchors (index : ℤ)).map (·.1)).getD ⟨0, 0⟩
  deltas.foldl (fun acc d => positionDragStep acc index (Vec.sub p0 d)) anchors

/-- `getPairedAnchorPosition` from the part_001 variant (lines 264-272): the
neighbor an edge control refers to, `none` at the sequence boundary. -/
def getPairedAnchorPos (absList : List AbsAnchor) (t : CtrlType) (index : ℕ) :
    Option Vec :=
  match t with
  | .pre => if index = 0 then none else (jsGet absList ((index : ℤ) - 1)).map (·.1)
  | .post =>
    if index = absList.length - 1 then none
    else (jsGet absList ((index : ℤ) + 1)).map (·.1)

/-- The arithmetic core of `absoluteToRelativeControl` (part_001 variant,
lines 280-308), after the anchor and its paired neighbor are in hand: clamp
the absolute x between the anchor and the neighbor, normalize it to `[0,1]`,
and floor the vertical offset. -/
def relativeControlCore (t : CtrlType) (position paired c : Vec) : Vec :=
  let mn : Vec := match t with | .post => position | .pre => paired
  let mx : Vec := match t with | .post => paired | .pre => position
  let x : ℚ := max mn.x (min mx.x c.x)
  ⟨|position.x - x| / |position.x - paired.x|, ((⌊c.y - position.y⌋ : ℤ) : ℚ)⟩

/-- `absoluteToRelativeControl` from the part_001 variant (lines 280-308).
`Except.error` models the `throw` on a missing paired anchor (and the
`TypeError` on an out-of-range index). -/
def absoluteToRelativeControl (absList : List AbsAnchor) (t : CtrlType)
    (index : ℕ) (absoluteControl : Vec) : Except String Vec :=
  match jsGet absList (index : ℤ) with
  | none => .error "no anchor at index"
  | some a =>
    match getPairedAnchorPos absList t index with
    | none => .error "Attempting to process a control without a paired anchor."
    | some pairedPosition =>
      .ok (relativeControlCore t a.1 pairedPosition absoluteControl)

/-- `setAnchors(index, 1, type, control)`: overwrite one stored control
descriptor, keeping everything else. -/
def setControl (anchors : List Anchor) (index : ℕ) (t : CtrlType) (v : Vec) :
    List Anchor :=
  match jsGet anchors (index : ℤ) with
  | none => anchors
  | some a =>
    anchors.set index
      (a.1, match t with
        | .pre => ⟨some v, a.2.post⟩
        | .post => ⟨a.2.pre, some v⟩)

/-- The ratio used for symmetric control dragging (`onControlDragStart` in the
part_001 variant, lines 323-334): signed x-ranges toward the two neighbors,
dragged side's range over the paired side's. -/
def symmetricFactor (absList : List AbsAnchor) (t : CtrlType) (index : ℕ) :
    Option ℚ :=
  match getPairedAnchorPos absList .pre index, getPairedAnchorPos absList .post index with
  | some prePos, some postPos =>
    match jsGet absList (index : ℤ) with
    | some a =>
      some (match t with
        | .pre => (a.1.x - postPos.x) / (a.1.x - prePos.x)
        | .post => (a.1.x - prePos.x) / (a.1.x - postPos.x))
    | none => none
  | _, _ => none

/-- One incremental update of a control-handle drag (`onControlDragStart` in
the part_001 variant, lines 336-354): convert the candidate absolute control
to relative form and write it; with the modifier held and a defined, truthy
ratio, also write the paired control with the same relative x and the scaled
relative y. A conversion error aborts the update with nothing written. -/
def controlDragStep (anchors : List Anchor) (index : ℕ) (t : CtrlType)
    (absoluteControl : Vec) (metaKey : Bool) : List Anchor :=
  match absoluteAnchors anchors with
  | none => anchors
  | some absList =>
    match absoluteToRelativeControl absList t index absoluteControl with
    | .error _ => anchors
    | .ok control =>
      let a1 := setControl anchors index t control
      let pairedType : CtrlType := match t with | .pre => .post | .post => .pre
      match symmetricFactor absList t index with
      | some r =>
        if metaKey ∧ r ≠ 0 then
          setControl a1 index pairedType ⟨control.x, control.y * r⟩
        else a1
      | none => a1

/-! ## Helper lemmas -/

theorem jsGet_natCast (l : List α) (i : ℕ) : jsGet l (i : ℤ) = l[i]? := by
  unfold jsGet
  by_cases h : i < l.length
  · rw [dif_pos ⟨Int.natCast_nonneg i, by simpa using h⟩]
    simp [List.getElem?_eq_getElem, h]
  · rw [dif_neg (by simpa using h)]
    exact (List.getElem?_eq_none (by omega)).symm

theorem jsGet_neg (l : List α) (i : ℤ) (h : i < 0) : jsGet l i = none := by
  unfold jsGet
  rw [dif_neg (by omega)]

/-! ## Example inputs shared by several claims -/

/-- A two-anchor curve `[(0,0), (10,10)]` with no stored handles. -/
def exPair : List Anchor := [(⟨0, 0⟩, ⟨none, none⟩), (⟨10, 10⟩, ⟨none, none⟩)]

/-! ## C9: deleteAnchor -/

/-- C9 counterexample: `deleteAnchor 5` on a 2-anchor sequence silently leaves
the sequence unchanged — there is no failure path in the code, contradicting
the claim that an out-of-range index fails with `IndexError`. -/
theorem deleteAnchor_out_of_range_silent : deleteAnchor exPair 5 = exPair := by
  decide

/-- C9 (amended): `deleteAnchor index` removes exactly the anchor at `index`
when `0 ≤ index < length`, leaving the others unchanged and in order
(`eraseIdx`); for `index ≥ length` it silently leaves the sequence unchanged;
a negative `index` counts from the end of the sequence (JavaScript `splice`
semantics), clamped at the front. -/
theorem deleteAnchor_behavior (anchors : List Anchor) (i : ℤ) :
    (0 ≤ i → i.toNat < anchors.length →
      deleteAnchor anchors i = anchors.eraseIdx i.toNat) ∧
    ((anchors.length : ℤ) ≤ i → deleteAnchor anchors i = anchors) ∧
    (i < 0 → deleteAnchor anchors i =
      anchors.eraseIdx ((anchors.length : ℤ) + i).toNat) := by
  unfold deleteAnchor spliceStart
  refine ⟨fun h0 hlt => ?_, fun hge => ?_, fun hneg => ?_⟩
  · rw [if_neg (by omega), min_eq_left (by omega)]
    exact (List.eraseIdx_eq_take_drop_succ anchors i.toNat).symm
  · rw [if_neg (by omega), min_eq_right (by omega)]
    rw [List.take_length, List.drop_eq_nil_of_le (by omega), List.append_nil]
  · rw [if_pos hneg]
    exact (List.eraseIdx_eq_take_drop_succ anchors _).symm

/-- C9 witness: instantiating the amended theorem — in-range deletion removes
exactly one anchor, and a negative index deletes from the end. -/
theorem deleteAnchor_behavior_witness :
    deleteAnchor exPair 1 = exPair.eraseIdx 1 ∧
    deleteAnchor exPair (-1) = exPair.eraseIdx 1 := by
  refine ⟨(deleteAnchor_behavior exPair 1).1 (by decide) (by decide), ?_⟩
  have h := (deleteAnchor_behavior exPair (-1)).2.2 (by decide)
  simpa using h

/-! ## C10: deleteAnchor(0) on a 3-anchor sequence -/

/-- A 3-anchor curve with the default handle layout: the first anchor has only
a `post` descriptor, the middle one has both, the last one has only `pre`. -/
def exTriple : List Anchor :=
  [(⟨0, 0⟩, ⟨none, some ⟨1, 0⟩⟩),
   (⟨1, 1⟩, ⟨some ⟨1, 0⟩, some ⟨1, 0⟩⟩),
   (⟨2, 2⟩, ⟨some ⟨1, 0⟩, none⟩)]

/-- C10: on this strictly sorted 3-anchor sequence, `deleteAnchor 0` leaves
2 anchors, but the new first anchor keeps its stale stored `pre` descriptor,
so resolving it dereferences the (missing) previous anchor — the deriver
fails (`none` models the JavaScript `TypeError` on `anchors[-1][0]`) instead
of yielding an anchor without a `pre` control point. -/
theorem deleteAnchor_first_breaks_deriver :
    SortedX exTriple ∧
    (deleteAnchor exTriple 0).length = 2 ∧
    (deleteAnchor exTriple 0).head?.map (fun a => a.2.pre) =
      some (some ⟨1, 0⟩) ∧
    deriveAnchor (deleteAnchor exTriple 0) 0 = none ∧
    absoluteAnchors (deleteAnchor exTriple 0) = none := by
  with_unfolding_all decide

/-! ## C8: conversion without a paired neighbor fails fast -/

/-- C8: requesting a control conversion at an anchor with no paired neighbor
on the required side — a `pre` handle at index 0, or a `post` handle at the
last index — yields the fail-fast error, and the drag-step writes nothing to
the store. -/
theorem controlDrag_without_paired_fails (anchors : List Anchor)
    (absList : List AbsAnchor) (t : CtrlType) (index : ℕ) (c : Vec)
    (metaKey : Bool) (hne : absList ≠ [])
    (hb : (t = CtrlType.pre ∧ index = 0) ∨
          (t = CtrlType.post ∧ index + 1 = absList.length)) :
    absoluteToRelativeControl absList t index c =
      .error "Attempting to process a control without a paired anchor." ∧
    (absoluteAnchors anchors = some absList →
      controlDragStep anchors index t c metaKey = anchors) := by
  have hidx : index < absList.length := by
    rcases hb with ⟨_, h0⟩ | ⟨_, hl⟩
    · subst h0
      exact List.length_pos.mpr hne
    · omega
  have herr : absoluteToRelativeControl absList t index c =
      .error "Attempting to process a control without a paired anchor." := by
    unfold absoluteToRelativeControl
    rw [jsGet_natCast, List.getElem?_eq_getElem hidx]
    have hp : getPairedAnchorPos absList t index = none := by
      rcases hb with ⟨ht, h0⟩ | ⟨ht, hl⟩
      · subst ht h0
        simp [getPairedAnchorPos]
      · subst ht
        show (if index = absList.length - 1 then none
          else (jsGet absList ((index : ℤ) + 1)).map (·.1)) = none
        rw [if_pos (by omega)]
    rw [hp]
  refine ⟨herr, fun habs => ?_⟩
  unfold controlDragStep
  simp only [habs, herr]

/-- C8 witness: a `pre` conversion at index 0 of a 2-anchor curve errors and
the drag-step leaves the store unchanged. -/
theorem controlDrag_without_paired_fails_witness :
    absoluteToRelativeControl exPair CtrlType.pre 0 ⟨1, 1⟩ =
      .error "Attempting to process a control without a paired anchor." ∧
    (absoluteAnchors exPair = some exPair →
      controlDragStep exPair 0 CtrlType.pre ⟨1, 1⟩ false = exPair) :=
  controlDrag_without_paired_fails exPair exPair CtrlType.pre 0 ⟨1, 1⟩ false
    (by decide) (Or.inl ⟨rfl, rfl⟩)

/-! ## C5: the handle clamp keeps the stored relative x in [0,1] -/

/-- C5: converting any candidate absolute control at an anchor with a paired
neighbor at a strictly greater time (for `post`; strictly smaller for `pre`)
succeeds with relative `x ∈ [0,1]`; a candidate on the anchor's own side of
the range clamps to exactly 0, one past the paired neighbor clamps to
exactly 1. -/
theorem absToRel_x_in_unit_interval (absList : List AbsAnchor) (t : CtrlType)
    (index : ℕ) (c : Vec) (a : AbsAnchor) (paired : Vec)
    (ha : jsGet absList (index : ℤ) = some a)
    (hp : getPairedAnchorPos absList t index = some paired)
    (hdir : (t = CtrlType.post → a.1.x < paired.x) ∧
            (t = CtrlType.pre → paired.x < a.1.x)) :
    ∃ r, absoluteToRelativeControl absList t index c = .ok r ∧
      0 ≤ r.x ∧ r.x ≤ 1 ∧
      ((t = CtrlType.post ∧ c.x < a.1.x) ∨ (t = CtrlType.pre ∧ a.1.x < c.x) →
        r.x = 0) ∧
      ((t = CtrlType.post ∧ paired.x < c.x) ∨ (t = CtrlType.pre ∧ c.x < paired.x) →
        r.x = 1) := by
  refine ⟨relativeControlCore t a.1 paired c, ?_, ?_⟩
  · unfold absoluteToRelativeControl
    rw [ha, hp]
  cases t with
  | post =>
    have hlt : a.1.x < paired.x := hdir.1 rfl
    have hden : |a.1.x - paired.x| = paired.x - a.1.x := by
      rw [abs_sub_comm]
      exact abs_of_nonneg (by linarith)
    have hxlo : a.1.x ≤ max a.1.x (min paired.x c.x) := le_max_left _ _
    have hxhi : max a.1.x (min paired.x c.x) ≤ paired.x :=
      max_le (le_of_lt hlt) (min_le_left _ _)
    have hnum : |a.1.x - max a.1.x (min paired.x c.x)| =
        max a.1.x (min paired.x c.x) - a.1.x := by
      rw [abs_sub_comm]
      exact abs_of_nonneg (by linarith)
    unfold relativeControlCore
    refine ⟨?_, ?_, ?_, ?_⟩
    · simp only [hden, hnum]
      exact div_nonneg (by linarith) (by linarith)
    · simp only [hden, hnum]
      rw [div_le_one (by linarith)]
      linarith
    · rintro (⟨_, hc⟩ | ⟨h, _⟩)
      · simp only
        have h1 : min paired.x c.x = c.x := min_eq_right (by linarith)
        have h2 : max a.1.x (min paired.x c.x) = a.1.x := by
          rw [h1]
          exact max_eq_left (by linarith)
        rw [h2]
        simp
      · exact absurd h (by simp)
    · rintro (⟨_, hc⟩ | ⟨h, _⟩)
      · simp only
        have h1 : min paired.x c.x = paired.x := min_eq_left (by linarith)
        have h2 : max a.1.x (min paired.x c.x) = paired.x := by
          rw [h1]
          exact max_eq_right (by linarith)
        rw [h2, hden]
        exact div_self (by linarith)
      · exact absurd h (by simp)
  | pre =>
    have hlt : paired.x < a.1.x := hdir.2 rfl
    have hden : |a.1.x - paired.x| = a.1.x - paired.x :=
      abs_of_nonneg (by linarith)
    have hxlo : paired.x ≤ max paired.x (min a.1.x c.x) := le_max_left _ _
    have hxhi : max paired.x (min a.1.x c.x) ≤ a.1.x :=
      max_le (le_of_lt hlt) (min_le_left _ _)
    have hnum : |a.1.x - max paired.x (min a.1.x c.x)| =
        a.1.x - max paired.x (min a.1.x c.x) :=
      abs_of_nonneg (by linarith)
    unfold relativeControlCore
    refine ⟨?_, ?_, ?_, ?_⟩
    · simp only [hden, hnum]
      exact div_nonneg (by linarith) (by linarith)
    · simp only [hden, hnum]
      rw [div_le_one (by linarith)]
      linarith
    · rintro (⟨h, _⟩ | ⟨_, hc⟩)
      · exact absurd h (by simp)
      · simp only
        have h1 : min a.1.x c.x = a.1.x := min_eq_left (by linarith)
        have h2 : max paired.x (min a.1.x c.x) = a.1.x := by
          rw [h1]
          exact max_eq_right (by linarith)
        rw [h2]
        simp
    · rintro (⟨h, _⟩ | ⟨_, hc⟩)
      · exact absurd h (by simp)
      · simp only
        have h1 : min a.1.x c.x = c.x := min_eq_right (by linarith)
        have h2 : max paired.x (min a.1.x c.x) = paired.x := by
          rw [h1]
          exact max_eq_left (by linarith)
        rw [h2, hden]
        exact div_self (by linarith)

/-- C5 witness: a `post` drag on `[(0,0),(10,10)]` with candidate x pushed
past the next anchor clamps to relative x in `[0,1]`. -/
theorem absToRel_x_in_unit_interval_witness :
    ∃ r, absoluteToRelativeControl exPair CtrlType.post 0 ⟨99, 0⟩ = .ok r ∧
      0 ≤ r.x ∧ r.x ≤ 1 ∧
      ((CtrlType.post = CtrlType.post ∧ (99:ℚ) < (0:ℚ)) ∨
        (CtrlType.post = CtrlType.pre ∧ (0:ℚ) < (99:ℚ)) → r.x = 0) ∧
      ((CtrlType.post = CtrlType.post ∧ (10:ℚ) < (99:ℚ)) ∨
        (CtrlType.post = CtrlType.pre ∧ (99:ℚ) < (10:ℚ)) → r.x = 1) :=
  absToRel_x_in_unit_interval exPair CtrlType.post 0 ⟨99, 0⟩
    (⟨0, 0⟩, ⟨none, none⟩) ⟨10, 10⟩ (by decide) (by decide)
    ⟨fun _ => by decide, fun h => by cases h⟩

/-! ## C6: round-trip of a handle vector -/

/-- Resolving a stored relative descriptor back to absolute coordinates, by
handle side (the two deriver formulas of `absoluteAnchors`). -/
def ctrlToAbsolute (t : CtrlType) (position paired p : Vec) : Vec :=
  match t with
  | .pre => preToAbsolute position paired p
  | .post => postToAbsolute position paired p

/-- C6 counterexample: the handle vector `(1, 1/2)` at anchor `(0,0)` with
next anchor `(2,0)` is not subject to clamping (`0 < 1 < 2`), yet converting
it to the stored relative descriptor floors the vertical offset to `0`, so
resolving back gives `(1, 0) ≠ (1, 1/2)`. -/
theorem roundTrip_fails_on_floor :
    (0:ℚ) < 1 ∧ (1:ℚ) < 2 ∧
    relativeControlCore CtrlType.post ⟨0, 0⟩ ⟨2, 0⟩ ⟨1, 1/2⟩ = ⟨1/2, 0⟩ ∧
    postToAbsolute ⟨0, 0⟩ ⟨2, 0⟩ ⟨1/2, 0⟩ = ⟨1, 0⟩ ∧
    (⟨1, 0⟩ : Vec) ≠ ⟨1, 1/2⟩ := by
  with_unfolding_all decide

/-- C6 (amended): for a handle vector `v` not subject to clamping, the
round-trip through the stored relative form restores the x-coordinate exactly;
it restores the whole vector exactly exactly when the vertical offset
`v.y - position.y` survives `Math.floor`, i.e. when it is an integer. -/
theorem roundTrip_amended (t : CtrlType) (position paired v : Vec)
    (hdir : (t = CtrlType.post → position.x < v.x ∧ v.x < paired.x) ∧
            (t = CtrlType.pre → paired.x < v.x ∧ v.x < position.x)) :
    (ctrlToAbsolute t position paired
        (relativeControlCore t position paired v)).x = v.x ∧
    (∀ k : ℤ, v.y - position.y = (k : ℚ) →
      ctrlToAbsolute t position paired (relativeControlCore t position paired v)
        = v) := by
  have hy : ∀ k : ℤ, v.y - position.y = (k : ℚ) →
      position.y + ((⌊v.y - position.y⌋ : ℤ) : ℚ) = v.y := by
    intro k hk
    rw [hk, Int.floor_intCast]
    linarith [hk]
  cases t with
  | post =>
    obtain ⟨h1, h2⟩ := hdir.1 rfl
    have hclamp : max position.x (min paired.x v.x) = v.x := by
      rw [min_eq_right (le_of_lt h2), max_eq_right (le_of_lt h1)]
    have hden : |position.x - paired.x| = paired.x - position.x := by
      rw [abs_sub_comm]
      exact abs_of_nonneg (by linarith)
    have hnum : |position.x - v.x| = v.x - position.x := by
      rw [abs_sub_comm]
      exact abs_of_nonneg (by linarith)
    have hne : paired.x - position.x ≠ 0 := by linarith
    have hx : (ctrlToAbsolute CtrlType.post position paired
        (relativeControlCore CtrlType.post position paired v)).x = v.x := by
      unfold ctrlToAbsolute postToAbsolute relativeControlCore Vec.add
      simp only [hclamp, hnum, hden]
      field_simp
    refine ⟨hx, fun k hk => ?_⟩
    have hy' := hy k hk
    unfold ctrlToAbsolute postToAbsolute relativeControlCore Vec.add at hx ⊢
    simp only [hclamp, hnum, hden] at hx ⊢
    cases v with
    | mk vx vy => exact congrArg₂ Vec.mk hx (by simpa using hy' )
  | pre =>
    obtain ⟨h1, h2⟩ := hdir.2 rfl
    have hclamp : max paired.x (min position.x v.x) = v.x := by
      rw [min_eq_right (le_of_lt h2), max_eq_right (le_of_lt h1)]
    have hden : |position.x - paired.x| = position.x - paired.x :=
      abs_of_nonneg (by linarith)
    have hnum : |position.x - v.x| = position.x - v.x :=
      abs_of_nonneg (by linarith)
    have hne : position.x - paired.x ≠ 0 := by linarith
    have hx : (ctrlToAbsolute CtrlType.pre position paired
        (relativeControlCore CtrlType.pre position paired v)).x = v.x := by
      unfold ctrlToAbsolute preToAbsolute relativeControlCore Vec.add
      simp only [hclamp, hnum, hden]
      field_simp
    refine ⟨hx, fun k hk => ?_⟩
    have hy' := hy k hk
    unfold ctrlToAbsolute preToAbsolute relativeControlCore Vec.add at hx ⊢
    simp only [hclamp, hnum, hden] at hx ⊢
    cases v with
    | mk vx vy => exact congrArg₂ Vec.mk hx (by simpa using hy' )

/-- C6 witness: the vector `(1, 3)` at anchor `(0,0)` with neighbor `(2,0)`
has an integral vertical offset, so the amended round-trip restores it
exactly. -/
theorem roundTrip_amended_witness :
    ctrlToAbsolute CtrlType.post ⟨0, 0⟩ ⟨2, 0⟩
      (relativeControlCore CtrlType.post ⟨0, 0⟩ ⟨2, 0⟩ ⟨1, 3⟩) = ⟨1, 3⟩ :=
  (roundTrip_amended CtrlType.post ⟨0, 0⟩ ⟨2, 0⟩ ⟨1, 3⟩
      ⟨fun _ => by decide, fun h => by cases h⟩).2 3
    (by with_unfolding_all decide)

/-! ## C2: the absolute-anchor deriver formulas -/

/-- C2: on a strictly time-sorted store, the deriver resolves the anchor at
index `i` keeping its position unchanged; a present `pre` descriptor resolves
to `position + ((position.x - prev.x) * (-pre.x), pre.y)` against the previous
anchor, a present `post` descriptor to
`position + ((next.x - position.x) * post.x, post.y)` against the next. -/
theorem deriveAnchor_formula (anchors : List Anchor) (i : ℕ)
    (a prevA nextA : Anchor) (hs : SortedX anchors)
    (ha : jsGet anchors (i : ℤ) = some a)
    (hprev : a.2.pre = none ∨ jsGet anchors ((i : ℤ) - 1) = some prevA)
    (hnext : a.2.post = none ∨ jsGet anchors ((i : ℤ) + 1) = some nextA) :
    deriveAnchor anchors i = some (a.1,
      ⟨a.2.pre.map (fun p => Vec.add a.1 ⟨(a.1.x - prevA.1.x) * (-p.x), p.y⟩),
       a.2.post.map (fun q => Vec.add a.1 ⟨(nextA.1.x - a.1.x) * q.x, q.y⟩)⟩) := by
  have hmul : ∀ d px py : ℚ, (⟨d * px * (-1), py⟩ : Vec) = ⟨d * (-px), py⟩ := by
    intro d px py
    have : d * px * (-1) = d * (-px) := by ring
    rw [this]
  unfold deriveAnchor preToAbsolute postToAbsolute
  rw [ha]
  rcases h1 : a.2.pre with _ | p
  · rcases h2 : a.2.post with _ | q
    · simp [h1, h2]
    · rcases hnext with hn | hn
      · rw [h2] at hn
        cases hn
      · simp [h1, h2, hn]
  · rcases hprev with hp | hp
    · rw [h1] at hp
      cases hp
    · rcases h2 : a.2.post with _ | q
      · simp [h1, h2, hp, hmul]
      · rcases hnext with hn | hn
        · rw [h2] at hn
          cases hn
        · simp [h1, h2, hp, hn, hmul]

/-- C2 witness: the middle anchor of the 3-anchor example resolves with both
formulas. -/
theorem deriveAnchor_formula_witness :
    deriveAnchor exTriple 1 = some ((⟨1, 1⟩ : Vec),
      ⟨(some ⟨1, 0⟩ : Option Vec).map
          (fun p => Vec.add ⟨1, 1⟩ ⟨((1:ℚ) - 0) * (-p.x), p.y⟩),
       (some ⟨1, 0⟩ : Option Vec).map
          (fun q => Vec.add ⟨1, 1⟩ ⟨((2:ℚ) - 1) * q.x, q.y⟩)⟩) :=
  deriveAnchor_formula exTriple 1
    (⟨1, 1⟩, ⟨some ⟨1, 0⟩, some ⟨1, 0⟩⟩)
    (⟨0, 0⟩, ⟨none, some ⟨1, 0⟩⟩)
    (⟨2, 2⟩, ⟨some ⟨1, 0⟩, none⟩)
    (by decide) (by decide) (Or.inr (by decide)) (Or.inr (by decide))

/-! ## C4: drag-time monotonicity -/

/-- A strictly sorted 3-anchor curve whose anchors are closer than the
2-coordinate-unit spacing the ±1 clamp silently assumes. -/
def exTightTriple : List Anchor :=
  [(⟨0, 0⟩, ⟨none, none⟩), (⟨mkRat 1 2, 0⟩, ⟨none, none⟩), (⟨1, 0⟩, ⟨none, none⟩)]

/-- C4 counterexample: dragging the middle anchor of a strictly sorted curve
whose neighbors are only one unit apart collides it with the previous anchor:
the candidate is clamped to `next.x - 1 = 0`, equal to the previous anchor's
x, so the sequence is no longer strictly increasing after one step. -/
theorem positionDrag_monotonicity_fails :
    SortedX exTightTriple ∧
    ¬ SortedX (positionDrag exTightTriple 1 [⟨-5, 0⟩]) := by
  with_unfolding_all decide

theorem jsGet_pred (l : List α) (index : ℕ) :
    jsGet l ((index : ℤ) - 1) =
      if index = 0 then none else l[index - 1]? := by
  cases index with
  | zero =>
    rw [jsGet_neg l _ (by omega)]
    simp
  | succ k =>
    have h : ((k + 1 : ℕ) : ℤ) - 1 = ((k : ℕ) : ℤ) := by push_cast; ring
    rw [h, jsGet_natCast]
    simp

theorem jsGet_succ (l : List α) (index : ℕ) :
    jsGet l ((index : ℤ) + 1) = l[index + 1]? := by
  have h : ((index : ℕ) : ℤ) + 1 = ((index + 1 : ℕ) : ℤ) := by push_cast; ring
  rw [h, jsGet_natCast]

theorem clampPosition_bounds (prev next : Option Vec) (c : Vec)
    (hgap : ∀ p nx : Vec, prev = some p → next = some nx → p.x + 2 ≤ nx.x) :
    (∀ p : Vec, prev = some p → p.x < (clampPosition prev next c).x) ∧
    (∀ nx : Vec, next = some nx → (clampPosition prev next c).x < nx.x) := by
  cases prev with
  | none =>
    cases next with
    | none =>
      exact ⟨fun p hp => absurd hp (by simp), fun nx hnx => absurd hnx (by simp)⟩
    | some nx0 =>
      refine ⟨fun p hp => absurd hp (by simp), fun nx hnx => ?_⟩
      injection hnx with h
      subst h
      unfold clampPosition
      dsimp only
      split_ifs with h1
      · linarith
      · linarith
  | some p0 =>
    cases next with
    | none =>
      refine ⟨fun p hp => ?_, fun nx hnx => absurd hnx (by simp)⟩
      injection hp with h
      subst h
      unfold clampPosition
      dsimp only
      split_ifs with h1
      · linarith
      · linarith
    | some nx0 =>
      have hg := hgap p0 nx0 rfl rfl
      constructor
      · intro p hp
        injection hp with h
        subst h
        unfold clampPosition
        dsimp only
        split_ifs with h1 h2 h3
        · linarith
        · linarith
        · linarith
        · linarith
      · intro nx hnx
        injection hnx with h
        subst h
        unfold clampPosition
        dsimp only
        split_ifs with h1 h2 h3
        · linarith
        · linarith
        · linarith
        · linarith

theorem sortedX_get (l : List Anchor) (hs : SortedX l) (i : ℕ)
    (h : i + 1 < l.length) :
    (l.get ⟨i, by omega⟩).1.x < (l.get ⟨i + 1, h⟩).1.x := by
  rw [sortedX_iff_chain'] at hs
  exact List.chain'_iff_get.mp hs i (by omega)

/-- One drag step preserves strict sortedness (given the spacing condition on
the dragged anchor's neighbors), the length, and every other anchor. -/
theorem positionDragStep_invariant (anchors : List Anchor) (index : ℕ)
    (hgap : ∀ p nx : Anchor, jsGet anchors ((index : ℤ) - 1) = some p →
      jsGet anchors ((index : ℤ) + 1) = some nx → p.1.x + 2 ≤ nx.1.x)
    (s : List Anchor) (c : Vec) (h1 : SortedX s)
    (h2 : s.length = anchors.length)
    (h3 : ∀ j, j ≠ index → s[j]? = anchors[j]?) :
    SortedX (positionDragStep s index c) ∧
    (positionDragStep s index c).length = anchors.length ∧
    (∀ j, j ≠ index → (positionDragStep s index c)[j]? = anchors[j]?) := by
  unfold positionDragStep
  rcases hidx : jsGet s (index : ℤ) with _ | a
  · exact ⟨h1, h2, h3⟩
  have hlt : index < s.length := by
    by_contra hc
    rw [jsGet_natCast, List.getElem?_eq_none (by omega)] at hidx
    cases hidx
  -- the neighbor reads agree with the original sequence
  have hprevs : jsGet s ((index : ℤ) - 1) = jsGet anchors ((index : ℤ) - 1) := by
    rw [jsGet_pred, jsGet_pred]
    by_cases h0 : index = 0
    · simp [h0]
    · simp only [h0, if_false]
      exact h3 (index - 1) (by omega)
  have hnexts : jsGet s ((index : ℤ) + 1) = jsGet anchors ((index : ℤ) + 1) := by
    rw [jsGet_succ, jsGet_succ]
    exact h3 (index + 1) (by omega)
  set prevOpt := (jsGet s ((index : ℤ) - 1)).map (·.1) with hprevOpt
  set nextOpt := (jsGet s ((index : ℤ) + 1)).map (·.1) with hnextOpt
  have hgap' : ∀ p nx : Vec, prevOpt = some p → nextOpt = some nx →
      p.x + 2 ≤ nx.x := by
    intro p nx hp hnx
    rw [hprevOpt] at hp
    rw [hnextOpt] at hnx
    rcases hpa : jsGet s ((index : ℤ) - 1) with _ | pa
    · rw [hpa] at hp
      cases hp
    rcases hna : jsGet s ((index : ℤ) + 1) with _ | na
    · rw [hna] at hnx
      cases hnx
    rw [hpa] at hp
    rw [hna] at hnx
    have hppos : pa.1 = p := by injection hp
    have hnpos : na.1 = nx := by injection hnx
    rw [← hppos, ← hnpos]
    exact hgap pa na (by rw [← hprevs]; exact hpa) (by rw [← hnexts]; exact hna)
  obtain ⟨hb1, hb2⟩ := clampPosition_bounds prevOpt nextOpt c hgap'
  set v : Anchor := (clampPosition prevOpt nextOpt c, a.2) with hv
  refine ⟨?_, ?_, ?_⟩
  · -- sortedness of the updated list
    rw [sortedX_iff_chain', List.chain'_iff_get]
    intro i hi
    rw [List.length_set] at hi
    have hil : i + 1 < s.length := by omega
    rw [List.get_eq_getElem, List.get_eq_getElem]
    simp only [List.getElem_set]
    by_cases he1 : index = i
    · rw [if_pos he1]
      have hne2 : ¬ index = i + 1 := by omega
      rw [if_neg hne2]
      -- v.x < s[i+1].x via the next-neighbor bound
      have hnx : jsGet s ((index : ℤ) + 1) = some s[i + 1] := by
        rw [jsGet_succ, he1]
        exact List.getElem?_eq_getElem hil
      have : nextOpt = some s[i + 1].1 := by
        rw [hnextOpt, hnx]
        rfl
      exact hb2 _ this
    · rw [if_neg he1]
      by_cases he2 : index = i + 1
      · rw [if_pos he2]
        -- s[i].x < v.x via the previous-neighbor bound
        have hpa : jsGet s ((index : ℤ) - 1) = some s[i] := by
          rw [jsGet_pred]
          have h0 : ¬ index = 0 := by omega
          rw [if_neg h0]
          have : index - 1 = i := by omega
          rw [this]
          exact List.getElem?_eq_getElem (by omega)
        have : prevOpt = some s[i].1 := by
          rw [hprevOpt, hpa]
          rfl
        exact hb1 _ this
      · rw [if_neg he2]
        have := sortedX_get s h1 i hil
        simpa using this
  · rw [List.length_set]
    exact h2
  · intro j hj
    rw [List.getElem?_set_ne (by omega)]
    exact h3 j hj

/-- C4 (amended): if the dragged anchor's two neighbors are at least two
coordinate units apart (when both exist — the ±1 clamp needs that room),
then for every delta sequence every anchor stays strictly increasing in `x`.
Since each step only depends on the fixed initial position and its own delta,
running the drag on an arbitrary delta list covers every intermediate state
of every drag (each prefix is itself a delta list). -/
theorem positionDrag_sorted (anchors : List Anchor) (index : ℕ)
    (deltas : List Vec) (hs : SortedX anchors)
    (hgap : ∀ p nx : Anchor, jsGet anchors ((index : ℤ) - 1) = some p →
      jsGet anchors ((index : ℤ) + 1) = some nx → p.1.x + 2 ≤ nx.1.x) :
    SortedX (positionDrag anchors index deltas) := by
  have hfold : ∀ (g : Vec → Vec) (ds : List Vec) (s : List Anchor),
      SortedX s → s.length = anchors.length →
      (∀ j, j ≠ index → s[j]? = anchors[j]?) →
      SortedX (ds.foldl (fun acc d => positionDragStep acc index (g d)) s) := by
    intro g ds
    induction ds with
    | nil => intro s a1 _ _; exact a1
    | cons d rest ih =>
      intro s a1 a2 a3
      obtain ⟨b1, b2, b3⟩ := positionDragStep_invariant anchors index hgap s (g d) a1 a2 a3
      exact ih _ b1 b2 b3
  exact hfold _ deltas anchors hs rfl (fun _ _ => rfl)

/-- C4 witness: a three-anchor curve with anchors 10 units apart keeps strict
sortedness under a drag of the middle anchor. -/
theorem positionDrag_sorted_witness :
    SortedX (positionDrag
      [((⟨0, 0⟩ : Vec), (⟨none, none⟩ : Controls)), (⟨10, 10⟩, ⟨none, none⟩),
        (⟨20, 0⟩, ⟨none, none⟩)] 1 [⟨-100, 0⟩, ⟨3, 4⟩]) :=
  positionDrag_sorted _ 1 _ (by decide) (fun p nx hp hnx => by
    rw [show ((1 : ℕ) : ℤ) - 1 = ((0 : ℕ) : ℤ) by decide, jsGet_natCast] at hp
    rw [show ((1 : ℕ) : ℤ) + 1 = ((2 : ℕ) : ℤ) by decide, jsGet_natCast] at hnx
    simp only [List.getElem?_cons_zero, List.getElem?_cons_succ] at hp hnx
    injection hp with hp
    injection hnx with hnx
    rw [← hp, ← hnx]
    with_unfolding_all decide)

/-! ## Characterization of the derived absolute-anchor list -/

theorem deriveAll_length (anchors : List Anchor) (idxs : List ℕ)
    (l : List AbsAnchor) (h : deriveAll anchors idxs = some l) :
    l.length = idxs.length := by
  induction idxs generalizing l with
  | nil =>
    unfold deriveAll at h
    injection h with h
    rw [← h]
    rfl
  | cons i rest ih =>
    unfold deriveAll at h
    rcases h1 : deriveAnchor anchors i with _ | a
    · rw [h1] at h
      cases h
    rcases h2 : deriveAll anchors rest with _ | tl
    · rw [h1, h2] at h
      cases h
    rw [h1, h2] at h
    injection h with h
    rw [← h]
    simp [ih tl h2]

theorem deriveAll_get (anchors : List Anchor) (idxs : List ℕ)
    (l : List AbsAnchor) (h : deriveAll anchors idxs = some l) (j : ℕ)
    (i : ℕ) (hj : idxs[j]? = some i) : l[j]? = deriveAnchor anchors i := by
  induction idxs generalizing l j with
  | nil => cases hj
  | cons i0 rest ih =>
    unfold deriveAll at h
    rcases h1 : deriveAnchor anchors i0 with _ | a
    · rw [h1] at h
      cases h
    rcases h2 : deriveAll anchors rest with _ | tl
    · rw [h1, h2] at h
      cases h
    rw [h1, h2] at h
    injection h with h
    cases j with
    | zero =>
      rw [List.getElem?_cons_zero] at hj
      injection hj with hj
      rw [← h, ← hj]
      simp [h1]
    | succ k =>
      rw [← h]
      simp only [List.getElem?_cons_succ]
      exact ih tl h2 k (by simpa using hj)

theorem absoluteAnchors_length (anchors : List Anchor) (l : List AbsAnchor)
    (h : absoluteAnchors anchors = some l) : l.length = anchors.length := by
  unfold absoluteAnchors at h
  rw [deriveAll_length anchors _ l h, List.length_range]

theorem absoluteAnchors_get (anchors : List Anchor) (l : List AbsAnchor)
    (h : absoluteAnchors anchors = some l) (j : ℕ) (hj : j < anchors.length) :
    l[j]? = deriveAnchor anchors j := by
  unfold absoluteAnchors at h
  exact deriveAll_get anchors _ l h j j (List.getElem?_range hj)

theorem deriveAnchor_position (anchors : List Anchor) (i : ℕ) (b : AbsAnchor)
    (h : deriveAnchor anchors i = some b) :
    ∃ a : Anchor, jsGet anchors (i : ℤ) = some a ∧ b.1 = a.1 := by
  rcases h1 : jsGet anchors (i : ℤ) with _ | a
  · unfold deriveAnchor at h
    rw [h1] at h
    cases h
  refine ⟨a, rfl, ?_⟩
  rcases h2 : a.2.pre with _ | p
  · rcases h3 : a.2.post with _ | q
    · simp [deriveAnchor, h1, h2, h3] at h
      rw [← h]
    · rcases h4 : jsGet anchors ((i : ℤ) + 1) with _ | nx
      · simp [deriveAnchor, h1, h2, h3, h4] at h
      · simp [deriveAnchor, h1, h2, h3, h4] at h
        rw [← h]
  · rcases h4 : jsGet anchors ((i : ℤ) - 1) with _ | pv
    · simp [deriveAnchor, h1, h2, h4] at h
    rcases h3 : a.2.post with _ | q
    · simp [deriveAnchor, h1, h2, h3, h4] at h
      rw [← h]
    · rcases h5 : jsGet anchors ((i : ℤ) + 1) with _ | nx
      · simp [deriveAnchor, h1, h2, h3, h4, h5] at h
      · simp [deriveAnchor, h1, h2, h3, h4, h5] at h
        rw [← h]

theorem absoluteAnchors_position (anchors : List Anchor) (l : List AbsAnchor)
    (h : absoluteAnchors anchors = some l) (j : ℕ) (a : Anchor)
    (ha : anchors[j]? = some a) :
    ∃ b : AbsAnchor, l[j]? = some b ∧ b.1 = a.1 := by
  have hj : j < anchors.length := (List.getElem?_eq_some.mp ha).1
  have hget := absoluteAnchors_get anchors l h j hj
  rcases hb : l[j]? with _ | b
  · rw [hb] at hget
    have hjl : j < l.length := by
      rw [absoluteAnchors_length anchors l h]
      exact hj
    rw [List.getElem?_eq_getElem hjl] at hb
    cases hb
  · rw [hb] at hget
    obtain ⟨a0, ha0, hpos⟩ := deriveAnchor_position anchors j b hget.symm
    rw [jsGet_natCast, ha] at ha0
    injection ha0 with ha0
    exact ⟨b, rfl, by rw [hpos, ← ha0]⟩

/-! ## C7: symmetric control dragging -/

/-- C7: with the modifier held, an update of either control at an anchor with
both neighbors writes the dragged side's converted descriptor and
simultaneously writes the paired side with the same relative x and the
relative y scaled by the code's signed ratio of the two neighbor x-ranges;
the two resolved absolute tangents of the anchor then satisfy
`post - position = (-m) • (pre - position)` for a positive `m`, i.e. they
stay collinear through the anchor, pointing to opposite sides. -/
theorem symmetricDrag_collinear (anchors : List Anchor)
    (absList : List AbsAnchor) (index : ℕ) (t : CtrlType) (c : Vec)
    (a prevA nextA : Anchor)
    (habs : absoluteAnchors anchors = some absList)
    (hs : SortedX anchors) (h0 : 1 ≤ index)
    (ha : anchors[index]? = some a)
    (hprev : anchors[index - 1]? = some prevA)
    (hnext : anchors[index + 1]? = some nextA) :
    ∃ ctl : Vec,
      absoluteToRelativeControl absList t index c = .ok ctl ∧
      controlDragStep anchors index t c true =
        anchors.set index (a.1,
          match t with
          | CtrlType.pre =>
            ⟨some ctl,
             some ⟨ctl.x, ctl.y * ((a.1.x - nextA.1.x) / (a.1.x - prevA.1.x))⟩⟩
          | CtrlType.post =>
            ⟨some ⟨ctl.x, ctl.y * ((a.1.x - prevA.1.x) / (a.1.x - nextA.1.x))⟩,
             some ctl⟩) ∧
      ∃ preA postA : Vec,
        deriveAnchor (controlDragStep anchors index t c true) index =
          some (a.1, ⟨some preA, some postA⟩) ∧
        ∃ m : ℚ, 0 < m ∧
          Vec.sub postA a.1 = Vec.scale (Vec.sub preA a.1) (-m) := by
  have hidx : index < anchors.length := (List.getElem?_eq_some.mp ha).1
  have hnl : index + 1 < anchors.length := (List.getElem?_eq_some.mp hnext).1
  have hlen : absList.length = anchors.length := absoluteAnchors_length _ _ habs
  -- strict ordering of the three positions
  have hga : anchors[index] = a := by
    rw [List.getElem?_eq_getElem hidx] at ha
    injection ha
  have hgp : anchors[index - 1] = prevA := by
    rw [List.getElem?_eq_getElem (show index - 1 < anchors.length by omega)] at hprev
    injection hprev
  have hgn : anchors[index + 1] = nextA := by
    rw [List.getElem?_eq_getElem hnl] at hnext
    injection hnext
  have hx1 : prevA.1.x < a.1.x := by
    have h := sortedX_get anchors hs (index - 1) (by omega)
    simp only [List.get_eq_getElem, Nat.sub_add_cancel h0] at h
    rw [hgp, hga] at h
    exact h
  have hx2 : a.1.x < nextA.1.x := by
    have h := sortedX_get anchors hs index (by omega)
    simp only [List.get_eq_getElem] at h
    rw [hga, hgn] at h
    exact h
  -- the absolute list agrees with the store on positions
  obtain ⟨b, hb, hbpos⟩ := absoluteAnchors_position anchors absList habs index a ha
  obtain ⟨bp, hbp, hbppos⟩ :=
    absoluteAnchors_position anchors absList habs (index - 1) prevA hprev
  obtain ⟨bn, hbn, hbnpos⟩ :=
    absoluteAnchors_position anchors absList habs (index + 1) nextA hnext
  have hjabs : jsGet absList (index : ℤ) = some b := by
    rw [jsGet_natCast]
    exact hb
  have hpairedPre : getPairedAnchorPos absList CtrlType.pre index = some prevA.1 := by
    unfold getPairedAnchorPos
    rw [if_neg (by omega), jsGet_pred, if_neg (by omega), hbp]
    simp [hbppos]
  have hpairedPost : getPairedAnchorPos absList CtrlType.post index = some nextA.1 := by
    have hne2 : ¬ index = absList.length - 1 := by omega
    unfold getPairedAnchorPos
    rw [if_neg hne2, jsGet_succ, hbn]
    simp [hbnpos]
  cases t with
  | pre =>
    set r : ℚ := (a.1.x - nextA.1.x) / (a.1.x - prevA.1.x) with hrdef
    have hr0 : r ≠ 0 := div_ne_zero (by linarith) (by linarith)
    set ctl := relativeControlCore CtrlType.pre a.1 prevA.1 c with hctl
    have hconv : absoluteToRelativeControl absList CtrlType.pre index c = .ok ctl := by
      unfold absoluteToRelativeControl
      simp only [hjabs, hpairedPre]
      rw [hbpos]
    refine ⟨ctl, hconv, ?_⟩
    have hsym : symmetricFactor absList CtrlType.pre index = some r := by
      unfold symmetricFactor
      simp only [hpairedPre, hpairedPost, hjabs]
      rw [hbpos]
    have hstep : controlDragStep anchors index CtrlType.pre c true =
        anchors.set index (a.1, ⟨some ctl, some ⟨ctl.x, ctl.y * r⟩⟩) := by
      unfold controlDragStep
      simp only [habs, hconv, hsym]
      rw [if_pos ⟨trivial, hr0⟩]
      have hset1 : setControl anchors index CtrlType.pre ctl =
          anchors.set index (a.1, ⟨some ctl, a.2.post⟩) := by
        unfold setControl
        rw [jsGet_natCast, ha]
      rw [hset1]
      show setControl _ index CtrlType.post _ = _
      unfold setControl
      rw [jsGet_natCast, List.getElem?_set_self (by omega)]
      simp only [List.set_set]
    refine ⟨hstep, ?_⟩
    rw [hstep]
    refine ⟨preToAbsolute a.1 prevA.1 ctl,
      postToAbsolute a.1 nextA.1 ⟨ctl.x, ctl.y * r⟩, ?_, ?_⟩
    · unfold deriveAnchor
      rw [jsGet_natCast, List.getElem?_set_self (by omega)]
      rw [jsGet_pred, if_neg (by omega)]
      rw [List.getElem?_set_ne (by omega), hprev]
      rw [jsGet_succ, List.getElem?_set_ne (by omega), hnext]
      rfl
    · refine ⟨(nextA.1.x - a.1.x) / (a.1.x - prevA.1.x),
        div_pos (by linarith) (by linarith), ?_⟩
      have hne1 : a.1.x - prevA.1.x ≠ 0 := by linarith
      unfold postToAbsolute preToAbsolute Vec.add Vec.sub Vec.scale
      have hgx : (a.1.x + (nextA.1.x - a.1.x) * ctl.x) - a.1.x =
          ((a.1.x + (a.1.x - prevA.1.x) * ctl.x * (-1)) - a.1.x) *
            (-((nextA.1.x - a.1.x) / (a.1.x - prevA.1.x))) := by
        field_simp
        ring
      have hgy : (a.1.y + ctl.y * r) - a.1.y =
          ((a.1.y + ctl.y) - a.1.y) *
            (-((nextA.1.x - a.1.x) / (a.1.x - prevA.1.x))) := by
        rw [hrdef]
        field_simp
        ring
      exact congrArg₂ Vec.mk hgx hgy
  | post =>
    set r : ℚ := (a.1.x - prevA.1.x) / (a.1.x - nextA.1.x) with hrdef
    have hr0 : r ≠ 0 := div_ne_zero (by linarith) (by linarith)
    set ctl := relativeControlCore CtrlType.post a.1 nextA.1 c with hctl
    have hconv : absoluteToRelativeControl absList CtrlType.post index c = .ok ctl := by
      unfold absoluteToRelativeControl
      simp only [hjabs, hpairedPost]
      rw [hbpos]
    refine ⟨ctl, hconv, ?_⟩
    have hsym : symmetricFactor absList CtrlType.post index = some r := by
      unfold symmetricFactor
      simp only [hpairedPre, hpairedPost, hjabs]
      rw [hbpos]
    have hstep : controlDragStep anchors index CtrlType.post c true =
        anchors.set index (a.1, ⟨some ⟨ctl.x, ctl.y * r⟩, some ctl⟩) := by
      unfold controlDragStep
      simp only [habs, hconv, hsym]
      rw [if_pos ⟨trivial, hr0⟩]
      have hset1 : setControl anchors index CtrlType.post ctl =
          anchors.set index (a.1, ⟨a.2.pre, some ctl⟩) := by
        unfold setControl
        rw [jsGet_natCast, ha]
      rw [hset1]
      show setControl _ index CtrlType.pre _ = _
      unfold setControl
      rw [jsGet_natCast, List.getElem?_set_self (by omega)]
      simp only [List.set_set]
    refine ⟨hstep, ?_⟩
    rw [hstep]
    refine ⟨preToAbsolute a.1 prevA.1 ⟨ctl.x, ctl.y * r⟩,
      postToAbsolute a.1 nextA.1 ctl, ?_, ?_⟩
    · unfold deriveAnchor
      rw [jsGet_natCast, List.getElem?_set_self (by omega)]
      rw [jsGet_pred, if_neg (by omega)]
      rw [List.getElem?_set_ne (by omega), hprev]
      rw [jsGet_succ, List.getElem?_set_ne (by omega), hnext]
      rfl
    · refine ⟨(nextA.1.x - a.1.x) / (a.1.x - prevA.1.x),
        div_pos (by linarith) (by linarith), ?_⟩
      have hne1 : a.1.x - prevA.1.x ≠ 0 := by linarith
      have hne2 : a.1.x - nextA.1.x ≠ 0 := by linarith
      unfold postToAbsolute preToAbsolute Vec.add Vec.sub Vec.scale
      have hgx : (a.1.x + (nextA.1.x - a.1.x) * ctl.x) - a.1.x =
          ((a.1.x + (a.1.x - prevA.1.x) * ctl.x * (-1)) - a.1.x) *
            (-((nextA.1.x - a.1.x) / (a.1.x - prevA.1.x))) := by
        field_simp
        ring
      have hgy : (a.1.y + ctl.y) - a.1.y =
          ((a.1.y + ctl.y * r) - a.1.y) *
            (-((nextA.1.x - a.1.x) / (a.1.x - prevA.1.x))) := by
        rw [hrdef]
        field_simp
        ring
      exact congrArg₂ Vec.mk hgx hgy

/-- A wide 3-anchor curve with no stored handles (the deriver is the
identity on it). -/
def exWide : List Anchor :=
  [(⟨0, 0⟩, ⟨none, none⟩), (⟨10, 10⟩, ⟨none, none⟩), (⟨20, 0⟩, ⟨none, none⟩)]

/-- C7 witness: a symmetric `pre` drag at the middle anchor of `exWide`
writes the scaled paired handle and the resolved tangents stay
anti-collinear. -/
theorem symmetricDrag_collinear_witness :
    ∃ ctl : Vec,
      absoluteToRelativeControl exWide CtrlType.pre 1 ⟨4, 13⟩ = .ok ctl ∧
      controlDragStep exWide 1 CtrlType.pre ⟨4, 13⟩ true =
        exWide.set 1 ((⟨10, 10⟩ : Vec),
          ⟨some ctl, some ⟨ctl.x, ctl.y * (((10:ℚ) - 20) / ((10:ℚ) - 0))⟩⟩) ∧
      ∃ preA postA : Vec,
        deriveAnchor (controlDragStep exWide 1 CtrlType.pre ⟨4, 13⟩ true) 1 =
          some (⟨10, 10⟩, ⟨some preA, some postA⟩) ∧
        ∃ m : ℚ, 0 < m ∧
          Vec.sub postA ⟨10, 10⟩ = Vec.scale (Vec.sub preA ⟨10, 10⟩) (-m) :=
  symmetricDrag_collinear exWide exWide 1 CtrlType.pre ⟨4, 13⟩
    (⟨10, 10⟩, ⟨none, none⟩) (⟨0, 0⟩, ⟨none, none⟩) (⟨20, 0⟩, ⟨none, none⟩)
    rfl (by decide) (by decide) rfl rfl rfl

/-! ## C1: getValue is exact at anchors -/

theorem bez1_zero (p0 p1 p2 p3 : ℚ) : bez1 p0 p1 p2 p3 0 = p0 := by
  unfold bez1
  ring

theorem bez1_one (p0 p1 p2 p3 : ℚ) : bez1 p0 p1 p2 p3 1 = p3 := by
  unfold bez1
  ring

theorem bezPoint_zero (a b : AbsAnchor) : bezPoint a b 0 = ⟨a.1.x, a.1.y⟩ := by
  unfold bezPoint
  simp only [bez1_zero]

theorem bezPoint_one (a b : AbsAnchor) : bezPoint a b 1 = ⟨b.1.x, b.1.y⟩ := by
  unfold bezPoint
  simp only [bez1_one]

theorem createLookupMap_length (a b : AbsAnchor) (n : ℕ) :
    (createLookupMap a b n).length = n + 1 := by
  unfold createLookupMap
  rw [List.length_map, List.length_range]

theorem createLookupMap_head (a b : AbsAnchor) (n : ℕ) :
    (createLookupMap a b n).head? = some ⟨a.1.x, a.1.y⟩ := by
  unfold createLookupMap
  rw [List.range_succ_eq_map]
  simp only [List.map_cons, List.head?_cons]
  rw [Nat.cast_zero, zero_div, bezPoint_zero]

theorem createLookupMap_last (a b : AbsAnchor) (n : ℕ) (hn : 1 ≤ n) :
    (createLookupMap a b n).getLast? = some ⟨b.1.x, b.1.y⟩ := by
  unfold createLookupMap
  rw [List.range_succ, List.map_append]
  simp only [List.map_cons, List.map_nil]
  rw [List.getLast?_concat]
  rw [div_self (by positivity : ((n : ℚ)) ≠ 0), bezPoint_one]

theorem chain'_head_le_last (l : List Vec) (p z : Vec)
    (hc : List.Chain' (fun u v : Vec => u.x < v.x) (p :: l))
    (hz : (p :: l).getLast? = some z) : p.x ≤ z.x := by
  induction l generalizing p with
  | nil =>
    simp only [List.getLast?_singleton] at hz
    injection hz with hz
    rw [hz]
  | cons q l2 ih =>
    rw [List.chain'_cons] at hc
    have hz' : (q :: l2).getLast? = some z := by
      rw [← hz]
      exact (List.getLast?_cons_cons ..).symm
    have := ih q hc.2 hz'
    linarith [hc.1]

theorem lookupInterp_head_exact (samples : List Vec) (p : Vec)
    (h2 : 2 ≤ samples.length) (hh : samples.head? = some p)
    (hc : List.Chain' (fun u v : Vec => u.x < v.x) samples) :
    lookupInterp samples p.x = some p.y := by
  match samples, h2 with
  | p0 :: q :: rest, _ =>
    rw [List.head?_cons] at hh
    injection hh with hh
    subst hh
    rw [List.chain'_cons] at hc
    unfold lookupInterp
    rw [if_pos ⟨le_refl _, le_of_lt hc.1⟩]
    rw [sub_self, zero_mul, zero_div, add_zero]

theorem lookupInterp_last_exact (z : Vec) : ∀ (samples : List Vec),
    2 ≤ samples.length →
    List.Chain' (fun u v : Vec => u.x < v.x) samples →
    samples.getLast? = some z →
    lookupInterp samples z.x = some z.y := by
  intro samples
  induction samples with
  | nil =>
    intro h2
    simp at h2
  | cons p tail ih =>
    intro h2 hc hz
    match tail, h2, hc, hz, ih with
    | q :: rest, h2, hc, hz, ih =>
      rw [List.chain'_cons] at hc
      cases rest with
      | nil =>
        rw [List.getLast?_cons_cons, List.getLast?_singleton] at hz
        injection hz with hz
        subst hz
        have hne : q.x - p.x ≠ 0 := sub_ne_zero.mpr (ne_of_gt hc.1)
        unfold lookupInterp
        rw [if_pos ⟨le_of_lt hc.1, le_refl _⟩]
        have hv : p.y + (q.x - p.x) * (q.y - p.y) / (q.x - p.x) = q.y := by
          rw [mul_div_cancel_left₀ _ hne]
          ring
        rw [hv]
      | cons r rest2 =>
        have hz' : (q :: r :: rest2).getLast? = some z := by
          rw [← hz]
          exact (List.getLast?_cons_cons ..).symm
        have hc2 := List.chain'_cons.mp hc.2
        have hz2 : (r :: rest2).getLast? = some z := by
          rw [← hz']
          exact (List.getLast?_cons_cons ..).symm
        have hrz : r.x ≤ z.x := chain'_head_le_last rest2 r z hc2.2 hz2
        have hqz : q.x < z.x := lt_of_lt_of_le hc2.1 hrz
        unfold lookupInterp
        rw [if_neg (by rintro ⟨h1, hcontra⟩; linarith)]
        exact ih (by simp) hc.2 hz'

theorem segmentsOf_cons (A B : AbsAnchor) (rest : List AbsAnchor) (n : ℕ) :
    segmentsOf (A :: B :: rest) n =
      ⟨A.1.x, B.1.x, createLookupMap A B n⟩ :: segmentsOf (B :: rest) n := rfl

theorem chain'_pos_lt (l : List AbsAnchor)
    (hc : List.Chain' (fun p q : AbsAnchor => p.1.x < q.1.x) l) :
    ∀ (j : ℕ) (h0 b : AbsAnchor), l[0]? = some h0 → l[j]? = some b → 1 ≤ j →
      h0.1.x < b.1.x := by
  intro j
  induction j with
  | zero =>
    intro h0 b _ _ h1
    omega
  | succ k ih =>
    intro h0 b hh hb _
    have hlt : k + 1 < l.length := (List.getElem?_eq_some.mp hb).1
    cases k with
    | zero =>
      rw [List.chain'_iff_get] at hc
      have := hc 0 (by omega)
      simp only [List.get_eq_getElem] at this
      rw [List.getElem?_eq_getElem (by omega : 0 < l.length)] at hh
      rw [List.getElem?_eq_getElem hlt] at hb
      injection hh with hh
      injection hb with hb
      rw [← hh, ← hb] at *
      exact this
    | succ m =>
      have hmid : l[m + 1]? = some l[m + 1] :=
        List.getElem?_eq_getElem (by omega)
      have h1 := ih h0 l[m + 1] hh hmid (by omega)
      rw [List.chain'_iff_get] at hc
      have h2 := hc (m + 1) (by omega)
      simp only [List.get_eq_getElem] at h2
      rw [List.getElem?_eq_getElem hlt] at hb
      injection hb with hb
      rw [← hb]
      exact lt_trans h1 h2

/-- Exactness of the sampled lookup at every anchor of the derived
absolute-anchor list: the segment walk locates a segment that has the queried
anchor position as one of its endpoints, and the linear interpolation is
exact there. -/
theorem segments_exact (n : ℕ) (hn : 1 ≤ n) :
    ∀ (absList : List AbsAnchor),
    List.Chain' (fun p q : AbsAnchor => p.1.x < q.1.x) absList →
    (∀ s ∈ segmentsOf absList n,
      List.Chain' (fun u v : Vec => u.x < v.x) s.map) →
    ∀ (i : ℕ) (b : AbsAnchor), absList[i]? = some b → 2 ≤ absList.length →
    getValueFromSegments (segmentsOf absList n) b.1.x = some b.1.y := by
  intro absList
  induction absList with
  | nil =>
    intro _ _ i b _ hlen2
    simp at hlen2
  | cons A tl ih =>
    intro hc hmono i b hib hlen2
    match tl, hc, hmono, hib, hlen2, ih with
    | B :: rest, hc, hmono, hib, hlen2, ih =>
      have hAB : A.1.x < B.1.x := (List.chain'_cons.mp hc).1
      have hc2 := (List.chain'_cons.mp hc).2
      have hmono0 : List.Chain' (fun u v : Vec => u.x < v.x)
          (createLookupMap A B n) := by
        have := hmono ⟨A.1.x, B.1.x, createLookupMap A B n⟩
          (by rw [segmentsOf_cons]; exact List.mem_cons_self _ _)
        exact this
      have hmonotl : ∀ s ∈ segmentsOf (B :: rest) n,
          List.Chain' (fun u v : Vec => u.x < v.x) s.map := fun s hs =>
        hmono s (by rw [segmentsOf_cons]; exact List.mem_cons_of_mem _ hs)
      cases i with
      | zero =>
        rw [List.getElem?_cons_zero] at hib
        injection hib with hib
        subst hib
        rw [segmentsOf_cons]
        unfold getValueFromSegments
        rw [if_pos ⟨le_refl _, le_of_lt hAB⟩]
        exact lookupInterp_head_exact (createLookupMap A B n) ⟨A.1.x, A.1.y⟩
          (by rw [createLookupMap_length]; omega)
          (createLookupMap_head A B n) hmono0
      | succ i' =>
        rw [List.getElem?_cons_succ] at hib
        cases i' with
        | zero =>
          rw [List.getElem?_cons_zero] at hib
          injection hib with hib
          subst hib
          rw [segmentsOf_cons]
          unfold getValueFromSegments
          rw [if_pos ⟨le_of_lt hAB, le_refl _⟩]
          exact lookupInterp_last_exact ⟨B.1.x, B.1.y⟩ (createLookupMap A B n)
            (by rw [createLookupMap_length]; omega) hmono0
            (createLookupMap_last A B n hn)
        | succ i'' =>
          have hBb : B.1.x < b.1.x :=
            chain'_pos_lt (B :: rest) hc2 (i'' + 1) B b
              (List.getElem?_cons_zero ..) hib (by omega)
          rw [segmentsOf_cons]
          unfold getValueFromSegments
          rw [if_neg (by rintro ⟨_, hcontra⟩; linarith)]
          have hlt : i'' + 1 < (B :: rest).length :=
            (List.getElem?_eq_some.mp hib).1
          exact ih hc2 hmonotl (i'' + 1) b hib (by simp at hlt ⊢; omega)

/-- The derived absolute anchors inherit the store's strict time order. -/
theorem absList_chain (anchors : List Anchor) (absList : List AbsAnchor)
    (habs : absoluteAnchors anchors = some absList) (hs : SortedX anchors) :
    List.Chain' (fun p q : AbsAnchor => p.1.x < q.1.x) absList := by
  have hlen := absoluteAnchors_length anchors absList habs
  rw [List.chain'_iff_get]
  intro i h
  have hi0 : i < anchors.length := by omega
  have hi1 : i + 1 < anchors.length := by omega
  obtain ⟨b0, hb0, hp0⟩ := absoluteAnchors_position anchors absList habs i _
    (List.getElem?_eq_getElem hi0)
  obtain ⟨b1, hb1, hp1⟩ := absoluteAnchors_position anchors absList habs (i + 1) _
    (List.getElem?_eq_getElem hi1)
  have e0 : absList.get ⟨i, by omega⟩ = b0 := by
    rw [List.get_eq_getElem]
    rw [List.getElem?_eq_getElem (by omega : i < absList.length)] at hb0
    injection hb0
  have e1 : absList.get ⟨i + 1, by omega⟩ = b1 := by
    rw [List.get_eq_getElem]
    rw [List.getElem?_eq_getElem (by omega : i + 1 < absList.length)] at hb1
    injection hb1
  rw [e0, e1, hp0, hp1]
  have := sortedX_get anchors hs i (by omega)
  simpa using this

/-- C1: on a strictly time-sorted store of at least two anchors whose derived
segment maps are strictly increasing in x (the monotonicity contract of spec
section 4.4), `getValue` at any anchor's time returns exactly that anchor's
value — segment boundaries resolve exactly, without interpolation error. -/
theorem getValue_at_anchor (anchors : List Anchor) (n : ℕ)
    (absList : List AbsAnchor) (hn : 1 ≤ n) (hs : SortedX anchors)
    (hlen : 2 ≤ anchors.length)
    (habs : absoluteAnchors anchors = some absList)
    (hmono : ∀ s ∈ segmentsOf absList n,
      List.Chain' (fun u v : Vec => u.x < v.x) s.map)
    (i : ℕ) (a : Anchor) (ha : anchors[i]? = some a) :
    getValue anchors n a.1.x = some a.1.y := by
  obtain ⟨b, hb, hbpos⟩ := absoluteAnchors_position anchors absList habs i a ha
  have hchain := absList_chain anchors absList habs hs
  unfold getValue
  rw [habs]
  show getValueFromSegments (segmentsOf absList n) a.1.x = some a.1.y
  rw [← hbpos]
  exact segments_exact n hn absList hchain hmono i b hb
    (by rw [absoluteAnchors_length anchors absList habs]; exact hlen)

/-- C1 witness: on the two-anchor curve `[(0,0),(10,10)]` with one sample
interval, `getValue 0 = 0` exactly at the first anchor. -/
theorem getValue_at_anchor_witness :
    getValue exPair 1 ((0 : ℚ)) = some 0 :=
  getValue_at_anchor exPair 1 exPair (by decide) (by decide) (by decide) rfl
    (by
      intro s hs
      rw [show segmentsOf exPair 1 =
        [⟨0, 10, [⟨0, 0⟩, ⟨10, 10⟩]⟩] from by with_unfolding_all decide] at hs
      rw [List.mem_singleton] at hs
      subst hs
      rw [List.chain'_cons]
      exact ⟨by decide, List.chain'_singleton _⟩)
    0 (⟨0, 0⟩, ⟨none, none⟩) rfl

/-! ## C3: addAnchor -/

/-- C3 counterexample: `addAnchor(0, 5)` on the strictly sorted curve
`[(0,0),(10,10)]` splices the new anchor after the existing anchor at the
same time (the insertion point is found with a strict `>` comparison), so the
result `[(0,0),(0,5),(10,10)]` is no longer strictly increasing in x. -/
theorem addAnchor_collision_breaks_sorted :
    SortedX exPair ∧ ¬ SortedX (addAnchor exPair 1 0 (some 5)) := by
  with_unfolding_all decide

instance : IsTrans Anchor (fun a b : Anchor => a.1.x < b.1.x) :=
  ⟨fun _ _ _ h1 h2 => lt_trans h1 h2⟩

theorem sortedX_pairwise (l : List Anchor) (hs : SortedX l) :
    List.Pairwise (fun a b : Anchor => a.1.x < b.1.x) l :=
  List.chain'_iff_pairwise.mp ((sortedX_iff_chain' l).mp hs)

theorem sortedX_insertIdx : ∀ (l : List Anchor) (i : ℕ) (v : Anchor),
    SortedX l → i ≤ l.length →
    (∀ (j : ℕ) (b : Anchor), j < i → l[j]? = some b → b.1.x < v.1.x) →
    (∀ (j : ℕ) (b : Anchor), i ≤ j → l[j]? = some b → v.1.x < b.1.x) →
    SortedX (l.insertIdx i v) := by
  intro l
  induction l with
  | nil =>
    intro i v _ hi _ _
    have hi0 : i = 0 := by simpa using hi
    subst hi0
    rw [List.insertIdx_zero]
    rfl
  | cons a l2 ih =>
    intro i v hs hi hbefore hafter
    have hs' := (sortedX_iff_chain' _).mp hs
    rw [List.chain'_cons'] at hs'
    cases i with
    | zero =>
      rw [List.insertIdx_zero, sortedX_iff_chain', List.chain'_cons]
      refine ⟨hafter 0 a (by omega) (List.getElem?_cons_zero ..), ?_⟩
      exact (sortedX_iff_chain' _).mp hs
    | succ i' =>
      rw [List.insertIdx_succ_cons, sortedX_iff_chain', List.chain'_cons']
      constructor
      · intro h hh
        cases i' with
        | zero =>
          rw [List.insertIdx_zero, List.head?_cons] at hh
          injection hh with hh
          subst hh
          exact hbefore 0 a (by omega) (List.getElem?_cons_zero ..)
        | succ i'' =>
          cases l2 with
          | nil =>
            rw [List.insertIdx_succ_nil] at hh
            cases hh
          | cons b l3 =>
            rw [List.insertIdx_succ_cons, List.head?_cons] at hh
            injection hh with hh
            subst hh
            exact hs'.1 b (by simp)
      · rw [← sortedX_iff_chain']
        refine ih i' v ((sortedX_iff_chain' _).mpr hs'.2) (by simpa using hi)
          ?_ ?_
        · intro j b hj hb
          exact hbefore (j + 1) b (by omega)
            (by rw [List.getElem?_cons_succ]; exact hb)
        · intro j b hj hb
          exact hafter (j + 1) b (by omega)
            (by rw [List.getElem?_cons_succ]; exact hb)

theorem lookupInterp_covers : ∀ (samples : List Vec) (time : ℚ) (p z : Vec),
    samples.head? = some p → samples.getLast? = some z →
    List.Chain' (fun u v : Vec => u.x < v.x) samples → 2 ≤ samples.length →
    p.x ≤ time → time ≤ z.x →
    ∃ y, lookupInterp samples time = some y := by
  intro samples
  induction samples with
  | nil =>
    intro time p z hp
    cases hp
  | cons p0 tail ih =>
    intro time p z hp hz hc h2 hlo hhi
    rw [List.head?_cons] at hp
    injection hp with hp
    subst hp
    match tail, hz, hc, h2, ih with
    | q :: rest, hz, hc, h2, ih =>
      by_cases hq : time ≤ q.x
      · refine ⟨p0.y + (time - p0.x) * (q.y - p0.y) / (q.x - p0.x), ?_⟩
        unfold lookupInterp
        rw [if_pos ⟨hlo, hq⟩]
      · cases rest with
        | nil =>
          rw [List.getLast?_cons_cons, List.getLast?_singleton] at hz
          injection hz with hz
          subst hz
          exact absurd hhi hq
        | cons r rest2 =>
          have hz' : (q :: r :: rest2).getLast? = some z := by
            rw [← hz]
            exact (List.getLast?_cons_cons ..).symm
          have hc2 := (List.chain'_cons.mp hc).2
          obtain ⟨y, hy⟩ := ih time q z (List.head?_cons ..) hz' hc2 (by simp)
            (le_of_lt (not_le.mp hq)) hhi
          refine ⟨y, ?_⟩
          unfold lookupInterp
          rw [if_neg (by rintro ⟨_, hcontra⟩; exact hq hcontra)]
          exact hy

theorem segments_covers (n : ℕ) (hn : 1 ≤ n) :
    ∀ (absList : List AbsAnchor) (A z : AbsAnchor),
    absList.head? = some A → absList.getLast? = some z →
    List.Chain' (fun p q : AbsAnchor => p.1.x < q.1.x) absList →
    2 ≤ absList.length →
    (∀ s ∈ segmentsOf absList n,
      List.Chain' (fun u v : Vec => u.x < v.x) s.map) →
    ∀ time : ℚ, A.1.x ≤ time → time ≤ z.1.x →
    ∃ y, getValueFromSegments (segmentsOf absList n) time = some y := by
  intro absList
  induction absList with
  | nil =>
    intro A z hA
    cases hA
  | cons A0 tail ih =>
    intro A z hA hz hc h2 hmono time hlo hhi
    rw [List.head?_cons] at hA
    injection hA with hA
    subst hA
    match tail, hz, hc, h2, hmono, ih with
    | B :: rest, hz, hc, h2, hmono, ih =>
      have hAB : A0.1.x < B.1.x := (List.chain'_cons.mp hc).1
      have hmono0 := hmono ⟨A0.1.x, B.1.x, createLookupMap A0 B n⟩
        (by rw [segmentsOf_cons]; exact List.mem_cons_self _ _)
      by_cases hB : time ≤ B.1.x
      · obtain ⟨y, hy⟩ := lookupInterp_covers (createLookupMap A0 B n) time
          ⟨A0.1.x, A0.1.y⟩ ⟨B.1.x, B.1.y⟩ (createLookupMap_head A0 B n)
          (createLookupMap_last A0 B n hn) hmono0
          (by rw [createLookupMap_length]; omega) hlo hB
        refine ⟨y, ?_⟩
        rw [segmentsOf_cons]
        unfold getValueFromSegments
        rw [if_pos ⟨hlo, hB⟩]
        exact hy
      · cases rest with
        | nil =>
          rw [List.getLast?_cons_cons, List.getLast?_singleton] at hz
          injection hz with hz
          subst hz
          exact absurd hhi hB
        | cons C rest2 =>
          have hz2 : (B :: C :: rest2).getLast? = some z := by
            rw [← hz]
            exact (List.getLast?_cons_cons ..).symm
          obtain ⟨y, hy⟩ := ih B z (List.head?_cons ..) hz2
            (List.chain'_cons.mp hc).2 (by simp)
            (fun s hs => hmono s
              (by rw [segmentsOf_cons]; exact List.mem_cons_of_mem _ hs))
            time (le_of_lt (not_le.mp hB)) hhi
          refine ⟨y, ?_⟩
          rw [segmentsOf_cons]
          unfold getValueFromSegments
          rw [if_neg (by rintro ⟨_, hcontra⟩; exact hB hcontra)]
          exact hy

/-- C3 (amended): on a strictly time-sorted curve with at least two anchors
and well-behaved segment maps, for a time strictly between the first and last
anchors' times and distinct from every anchor's time, `addAnchor` splices the
new anchor exactly before the first anchor with `position.x > time`, with
default symmetric descriptors `{x: 1/2, y: 0}` on both sides (both sides have
neighbors there), the sequence stays strictly time-sorted, and an omitted
value defaults to `getValue(time)` sampled from the pre-insertion curve.
(As stated the original claim is false: a time equal to an existing anchor's
time yields a duplicated time, a time past the last anchor is silently
ignored in this lineage, and a time before the first anchor would attach a
`pre` descriptor with no previous neighbor.) -/
theorem addAnchor_strict_interior (anchors : List Anchor) (n : ℕ) (time : ℚ)
    (value : Option ℚ) (absList : List AbsAnchor) (hn : 1 ≤ n)
    (hs : SortedX anchors) (hlen : 2 ≤ anchors.length)
    (habs : absoluteAnchors anchors = some absList)
    (hmono : ∀ s ∈ segmentsOf absList n,
      List.Chain' (fun u v : Vec => u.x < v.x) s.map)
    (hfirst : ∀ a0, anchors.head? = some a0 → a0.1.x < time)
    (hlast : ∀ aN, anchors.getLast? = some aN → time < aN.1.x)
    (hne : ∀ a ∈ anchors, a.1.x ≠ time) :
    ∃ i v, anchors.findIdx? (fun a => decide (time < a.1.x)) = some i ∧
      1 ≤ i ∧ i < anchors.length ∧
      addAnchor anchors n time value =
        anchors.insertIdx i ((⟨time, v⟩ : Vec), ⟨some ⟨1/2, 0⟩, some ⟨1/2, 0⟩⟩) ∧
      SortedX (addAnchor anchors n time value) ∧
      (∀ v0, value = some v0 → v = v0) ∧
      (value = none → getValue anchors n time = some v) := by
  have hnil : anchors ≠ [] := by
    intro h
    rw [h] at hlen
    simp at hlen
  obtain ⟨aN, haN⟩ : ∃ aN, anchors.getLast? = some aN := by
    cases h : anchors.getLast? with
    | none =>
      have := List.getLast?_isSome.mpr hnil
      rw [h] at this
      cases this
    | some aN => exact ⟨aN, rfl⟩
  have hfind : anchors.findIdx? (fun a => decide (time < a.1.x)) =
      some (anchors.findIdx (fun a => decide (time < a.1.x))) :=
    List.findIdx?_eq_some_of_exists
      ⟨aN, List.mem_of_getLast?_eq_some haN, decide_eq_true (hlast aN haN)⟩
  set i := anchors.findIdx (fun a => decide (time < a.1.x)) with hidef
  obtain ⟨hilt, hpi, hbefore0⟩ := List.findIdx?_eq_some_iff_getElem.mp hfind
  have hpi' : time < anchors[i].1.x := of_decide_eq_true hpi
  have h1le : 1 ≤ i := by
    by_contra hc
    have hi0 : i = 0 := by omega
    have hhead : anchors.head? = some anchors[0] := by
      rw [List.head?_eq_getElem?]
      exact List.getElem?_eq_getElem (by omega)
    have := hfirst anchors[0] hhead
    simp only [hi0] at hpi'
    linarith
  have hvx : ∀ (j : ℕ) (b : Anchor), j < i → anchors[j]? = some b →
      b.1.x < time := by
    intro j b hj hb
    have hjlt : j < anchors.length := (List.getElem?_eq_some.mp hb).1
    have hble := hbefore0 j hj
    rw [List.getElem?_eq_getElem hjlt] at hb
    injection hb with hb
    have hxle : b.1.x ≤ time := by
      by_contra hcc
      push_neg at hcc
      exact hble (decide_eq_true (by rw [hb]; exact hcc))
    exact lt_of_le_of_ne hxle (hne b (by rw [← hb]; exact List.getElem_mem hjlt))
  have hvx2 : ∀ (j : ℕ) (b : Anchor), i ≤ j → anchors[j]? = some b →
      time < b.1.x := by
    intro j b hj hb
    have hjlt : j < anchors.length := (List.getElem?_eq_some.mp hb).1
    rw [List.getElem?_eq_getElem hjlt] at hb
    injection hb with hb
    rcases eq_or_lt_of_le hj with heq | hlt
    · rw [← hb]
      exact heq ▸ hpi'
    · have hpw := sortedX_pairwise anchors hs
      have := List.pairwise_iff_getElem.mp hpw i j hilt hjlt hlt
      rw [← hb]
      exact lt_trans hpi' this
  refine ⟨i, (match value with
    | some v0 => v0
    | none => (getValue anchors n time).getD 0), hfind, h1le, hilt, ?_, ?_, ?_, ?_⟩
  · unfold addAnchor
    rw [hfind]
  · have heq : addAnchor anchors n time value =
        anchors.insertIdx i ((⟨time, match value with
          | some v0 => v0
          | none => (getValue anchors n time).getD 0⟩ : Vec),
          ⟨some ⟨1/2, 0⟩, some ⟨1/2, 0⟩⟩) := by
      unfold addAnchor
      rw [hfind]
    rw [heq]
    exact sortedX_insertIdx anchors i _ hs (le_of_lt hilt)
      (fun j b hj hb => hvx j b hj hb)
      (fun j b hj hb => hvx2 j b hj hb)
  · intro v0 hv
    rw [hv]
  · intro hv
    rw [hv]
    have hheadA : anchors.head? = some anchors[0] := by
      rw [List.head?_eq_getElem?]
      exact List.getElem?_eq_getElem (by omega)
    obtain ⟨b0, hb0, hb0pos⟩ := absoluteAnchors_position anchors absList habs 0
      anchors[0] (List.getElem?_eq_getElem (by omega))
    have hlenabs := absoluteAnchors_length anchors absList habs
    have haN' : anchors[anchors.length - 1]? = some aN := by
      rw [← List.getLast?_eq_getElem?]
      exact haN
    obtain ⟨bN, hbN, hbNpos⟩ := absoluteAnchors_position anchors absList habs
      (anchors.length - 1) aN haN'
    have hAhead : absList.head? = some b0 := by
      rw [List.head?_eq_getElem?]
      exact hb0
    have hAlast : absList.getLast? = some bN := by
      rw [List.getLast?_eq_getElem?, hlenabs]
      exact hbN
    obtain ⟨y, hy⟩ := segments_covers n hn absList b0 bN hAhead hAlast
      (absList_chain anchors absList habs hs) (by omega) hmono time
      (by rw [hb0pos]; exact le_of_lt (hfirst anchors[0] hheadA))
      (by rw [hbNpos]; exact le_of_lt (hlast aN haN))
    have hgv : getValue anchors n time = some y := by
      unfold getValue
      rw [habs]
      exact hy
    rw [hgv]
    rfl

/-- C3 witness: `addAnchor(5, 7)` on `[(0,0),(10,10)]` splices at index 1 with
default handles and keeps the sequence strictly sorted. -/
theorem addAnchor_strict_interior_witness :
    ∃ i v, exPair.findIdx? (fun a => decide ((5:ℚ) < a.1.x)) = some i ∧
      1 ≤ i ∧ i < exPair.length ∧
      addAnchor exPair 1 5 (some 7) =
        exPair.insertIdx i ((⟨5, v⟩ : Vec), ⟨some ⟨1/2, 0⟩, some ⟨1/2, 0⟩⟩) ∧
      SortedX (addAnchor exPair 1 5 (some 7)) ∧
      (∀ v0, (some 7 : Option ℚ) = some v0 → v = v0) ∧
      ((some 7 : Option ℚ) = none → getValue exPair 1 5 = some v) :=
  addAnchor_strict_interior exPair 1 5 (some 7) exPair (by decide) (by decide)
    (by decide) rfl
    (by
      intro s hs
      rw [show segmentsOf exPair 1 =
        [⟨0, 10, [⟨0, 0⟩, ⟨10, 10⟩]⟩] from by with_unfolding_all decide] at hs
      rw [List.mem_singleton] at hs
      subst hs
      rw [List.chain'_cons]
      exact ⟨by decide, List.chain'_singleton _⟩)
    (by
      intro a0 h
      have h' : some ((⟨0, 0⟩ : Vec), (⟨none, none⟩ : Controls)) = some a0 := h
      injection h' with h'
      rw [← h']
      decide)
    (by
      intro aN h
      have h' : some ((⟨10, 10⟩ : Vec), (⟨none, none⟩ : Controls)) = some aN := h
      injection h' with h'
      rw [← h']
      decide)
    (by decide)

end BezierEditor
